import Mathlib

/-!
Verification of the gift-packing optimization core (src/main.py).

The program builds a 0-1 integer program with pulp: binary assignment
variables x[i][b] (item i in box b), binary activity variables y[b],
a partition constraint per item, two capacity constraints per box,
symmetry-breaking constraints y[b] >= y[b+1], objective sum y[b]; it then
calls the external exact solver CBC and, on an optimal status, extracts
the per-item box assignments and the per-box summary.

The external solver is modelled relationally: its returned status and the
variable valuation it produced are parameters, and theorems about solved
instances hypothesize that the valuation satisfies the model constraints
(`Feasible`) and minimizes the objective (`OptimalSol`), which is exactly
what an optimal status from an exact solver asserts.  Weights and values
are embedded as rationals.
-/

namespace Giftpack

/-- A row of the item catalog: columns item (name), kg, value (main.py line 134). -/
structure Item where
  name : String
  kg : ℚ
  value : ℚ
deriving DecidableEq

/-- The item catalog with `n` rows; `solve` receives it with the index reset
to 0..n-1 (main.py line 111), so `items = list(df.index)` (line 22) is
identified with `Fin n`. -/
abbrev Catalog (n : ℕ) := Mathlib.Vector Item n

/-- Statuses the external LP solver can report (pulp LpStatus constants).
main.py line 54 only distinguishes optimal from everything else. -/
inductive Status where
  | optimal
  | notSolved
  | infeasible
  | unbounded
  | undefined
deriving DecidableEq

/-- A 0-1 valuation of the decision variables created at main.py lines 27-30:
`x i b` is the binary assignment indicator, `y b` the binary box-activity
indicator; the number of candidate boxes equals the number of items. -/
structure Sol (n : ℕ) where
  x : Fin n → Fin n → Bool
  y : Fin n → Bool

/-- Numeric value of a binary variable. -/
def b2q (b : Bool) : ℚ := if b then 1 else 0

/-- Left side of the partition constraint, main.py line 40:
`lpSum(x[i][b] for b in B)`. -/
def assignCount {n : ℕ} (s : Sol n) (i : Fin n) : ℚ :=
  ∑ b, b2q (s.x i b)

/-- Left side of the weight constraint, main.py line 44:
`lpSum(kg[i] * x[i][b] for i in items)`. -/
def binKg {n : ℕ} (df : Catalog n) (s : Sol n) (b : Fin n) : ℚ :=
  ∑ i, (df.get i).kg * b2q (s.x i b)

/-- Left side of the value constraint, main.py line 45:
`lpSum(value[i] * x[i][b] for i in items)`. -/
def binValue {n : ℕ} (df : Catalog n) (s : Sol n) (b : Fin n) : ℚ :=
  ∑ i, (df.get i).value * b2q (s.x i b)

/-- The objective, main.py line 36: `lpSum(y[b] for b in B)`. -/
def objective {n : ℕ} (s : Sol n) : ℚ :=
  ∑ b, b2q (s.y b)

/-- The constraint system built at main.py lines 38-49: partition (line 40),
weight and value capacity coupling (lines 44-45), symmetry breaking
`y[b] >= y[b+1]` (lines 48-49). -/
def Feasible {n : ℕ} (df : Catalog n) (maxKg maxValue : ℚ) (s : Sol n) : Prop :=
  (∀ i, assignCount s i = 1) ∧
  (∀ b, binKg df s b ≤ maxKg * b2q (s.y b)) ∧
  (∀ b, binValue df s b ≤ maxValue * b2q (s.y b)) ∧
  (∀ b c : Fin n, c.val = b.val + 1 → b2q (s.y c) ≤ b2q (s.y b))

/-- What `prob.status == LpStatusOptimal` (main.py lines 52-54) asserts for an
exact solver: the reported valuation satisfies every constraint and attains
the minimum of the objective over all valuations satisfying them. -/
def OptimalSol {n : ℕ} (df : Catalog n) (maxKg maxValue : ℚ) (s : Sol n) : Prop :=
  Feasible df maxKg maxValue s ∧
  ∀ t : Sol n, Feasible df maxKg maxValue t → objective s ≤ objective t

/-! ## Result extraction (main.py lines 57-84) -/

/-- main.py line 58: `used_boxes = [b for b in B if value(y[b]) > 0.5]`. -/
def usedBoxes (n : ℕ) (s : Sol n) : List (Fin n) :=
  (List.finRange n).filter (fun b => s.y b)

/-- The inner loop of main.py lines 64-67: the first box `b` with
`value(x[i][b]) > 0.5`, if any (the `break` stops at the first). -/
def itemBox {n : ℕ} (s : Sol n) (i : Fin n) : Option (Fin n) :=
  (List.finRange n).find? (fun b => s.x i b)

/-- main.py lines 62-67: the `box_assignments` list; an entry `b + 1` is
appended only for items whose inner loop finds a box. -/
def boxAssignments {n : ℕ} (s : Sol n) : List ℕ :=
  (List.finRange n).filterMap (fun i => (itemBox s i).map (fun b => b.val + 1))

/-- main.py lines 61 and 68: copy the catalog and attach the box column.
pandas raises when the column length differs from the frame length, so the
result is defined only when the lengths agree. -/
def dfResult {n : ℕ} (df : Catalog n) (s : Sol n) : Option (List (Item × ℕ)) :=
  if (boxAssignments s).length = n then some (df.toList.zip (boxAssignments s))
  else none

/-- main.py line 73: `box_items = [i for i in items if value(x[i][b]) > 0.5]`. -/
def boxItems {n : ℕ} (s : Sol n) (b : Fin n) : List (Fin n) :=
  (List.finRange n).filter (fun i => s.x i b)

/-- main.py line 74: `w = sum(kg[i] for i in box_items)`. -/
def boxKgSum {n : ℕ} (df : Catalog n) (s : Sol n) (b : Fin n) : ℚ :=
  ((boxItems s b).map (fun i => (df.get i).kg)).sum

/-- main.py line 75: `v = sum(value[i] for i in box_items)`. -/
def boxValueSum {n : ℕ} (df : Catalog n) (s : Sol n) (b : Fin n) : ℚ :=
  ((boxItems s b).map (fun i => (df.get i).value)).sum

/-- main.py line 76: `names = df.loc[box_items, "item"].tolist()`. -/
def boxNames {n : ℕ} (df : Catalog n) (s : Sol n) (b : Fin n) : List String :=
  (boxItems s b).map (fun i => (df.get i).name)

/-- The separator of main.py line 81. -/
def sep : String := ", "

/-- Python round(q, 2) of main.py lines 79-80.  (Python rounds half to even;
this rounds half up.  The two agree except at exact ties, and no claim
depends on the tie rule: rounding is presentation-only.) -/
def round2 (q : ℚ) : ℚ := (round (q * 100) : ℤ) / 100

/-- One row of the summary dict built at main.py lines 77-82. -/
structure BoxRow where
  box : ℕ
  weightKg : ℚ
  value : ℚ
  items : String
deriving DecidableEq

/-- main.py lines 71-82: one summary row per used box, in the order of
`used_boxes`. -/
def boxesSummary {n : ℕ} (df : Catalog n) (s : Sol n) : List BoxRow :=
  (usedBoxes n s).map (fun b =>
    ⟨b.val + 1, round2 (boxKgSum df s b), round2 (boxValueSum df s b),
      String.intercalate sep (boxNames df s b)⟩)

/-- main.py lines 16-84, `solve`: if the solver status is not optimal the
call returns `(None, None, 0)` (modelled `none`, lines 54-55); otherwise it
returns the assignment-annotated catalog copy, the summary and
`len(used_boxes)` (line 84).  The capacities and the solver outcome
`(st, s)` are those fed to / produced by the external solver at line 52. -/
def solve {n : ℕ} (df : Catalog n) (maxKg maxValue : ℚ) (st : Status) (s : Sol n) :
    Option (List (Item × ℕ) × List BoxRow × ℕ) :=
  if st = Status.optimal then
    (dfResult df s).map (fun d => (d, boxesSummary df s, (usedBoxes n s).length))
  else none

/-- Outcomes of the `Pack Gifts` branch of `main`, main.py lines 106-123. -/
inductive MainOutcome where
  | errorNoData
  | errorInfeasible
  | results (dfr : List (Item × ℕ)) (summary : List BoxRow) (numBoxes : ℕ)
deriving DecidableEq

/-- main.py lines 106-123: an empty catalog is rejected with the
"No gift data to optimize." error before `solve` is called; otherwise
`solve` runs and a `None` first component becomes the
"Could not find a feasible solution" error. -/
def mainPack {n : ℕ} (df : Catalog n) (maxKg maxValue : ℚ) (st : Status) (s : Sol n) :
    MainOutcome :=
  if n = 0 then MainOutcome.errorNoData
  else
    match solve df maxKg maxValue st s with
    | none => MainOutcome.errorInfeasible
    | some (d, bs, k) => MainOutcome.results d bs k

/-! ## Specification-side model and auxiliary constructions -/

/-- Modelled from the spec (section 3, Data Model): an assignment is a total
function from items to bins; the model builder caps the bin count at the
item count.  `specKg a b` is the aggregate weight in bin `b`. -/
def specKg {n : ℕ} (df : Catalog n) (a : Fin n → Fin n) (b : Fin n) : ℚ :=
  ∑ i, if a i = b then (df.get i).kg else 0

/-- Modelled from the spec: aggregate value of bin `b` under assignment `a`. -/
def specValue {n : ℕ} (df : Catalog n) (a : Fin n → Fin n) (b : Fin n) : ℚ :=
  ∑ i, if a i = b then (df.get i).value else 0

/-- Modelled from the spec (invariants 1-2): the assignment is a partition
(automatic for a total function) and every bin respects both capacities. -/
def SpecFeasible {n : ℕ} (df : Catalog n) (maxKg maxValue : ℚ) (a : Fin n → Fin n) : Prop :=
  ∀ b, specKg df a b ≤ maxKg ∧ specValue df a b ≤ maxValue

/-- The non-empty bins of an assignment, in index order. -/
def occList {n : ℕ} (a : Fin n → Fin n) : List (Fin n) :=
  (List.finRange n).filter (fun b => decide (∃ i, a i = b))

/-- Modelled from the spec (invariant 3): the number of non-empty bins of an
assignment. -/
def specBins {n : ℕ} (a : Fin n → Fin n) : ℕ := (occList a).length

/-- Relabel the non-empty bins of an assignment onto the prefix 0..m-1,
giving a variable valuation that satisfies the full constraint system. -/
def relabel {n : ℕ} (a : Fin n → Fin n) : Sol n where
  x := fun i b => decide ((occList a).indexOf (a i) = b.val)
  y := fun b => decide (b.val < (occList a).length)

/-- The assignment induced by a feasible valuation: the unique box of each item. -/
def induced {n : ℕ} (s : Sol n) : Fin n → Fin n := fun i => (itemBox s i).getD i

/-- Modelled from the spec (Optimality lower bound): total weight. -/
def totalKg {n : ℕ} (df : Catalog n) : ℚ := ∑ i, (df.get i).kg

/-- Modelled from the spec (Optimality lower bound): total value. -/
def totalValue {n : ℕ} (df : Catalog n) : ℚ := ∑ i, (df.get i).value

abbrev itA : Item := ⟨r"a", 1, 10⟩
abbrev dfA : Catalog 1 := ⟨[itA], rfl⟩
abbrev sA : Sol 1 := ⟨fun _ _ => true, fun _ => true⟩

abbrev dfBig : Catalog 1 := ⟨[⟨r"big", 3, 5⟩], rfl⟩
abbrev dfPricey : Catalog 1 := ⟨[⟨r"pricey", 1, 99⟩], rfl⟩
abbrev sNone : Sol 1 := ⟨fun _ _ => false, fun _ => false⟩

abbrev df0 : Catalog 0 := ⟨[], rfl⟩
abbrev s0 : Sol 0 := ⟨fun i => i.elim0, fun i => i.elim0⟩


lemma b2q_nonneg (b : Bool) : 0 ≤ b2q b := by
  rcases b with _ | _ <;> simp [b2q]

lemma b2q_le_one (b : Bool) : b2q b ≤ 1 := by
  rcases b with _ | _ <;> simp [b2q]

lemma b2q_true_iff (b : Bool) : b2q b = 1 ↔ b = true := by
  rcases b with _ | _ <;> simp [b2q]

lemma b2q_false (b : Bool) (h : b = false) : b2q b = 0 := by
  subst h; rfl

lemma finRange_map_sum {n : ℕ} (g : Fin n → ℚ) :
    ((List.finRange n).map g).sum = ∑ i, g i := rfl

lemma sum_map_filter {α} (p : α → Bool) (f : α → ℚ) :
    ∀ l : List α, ((l.filter p).map f).sum = (l.map (fun a => if p a then f a else 0)).sum := by
  intro l
  induction l with
  | nil => rfl
  | cons a t ih =>
    rcases h : p a with _ | _ <;>
      simp [List.filter_cons, h, ih]

lemma filter_length_eq_card {n : ℕ} (p : Fin n → Bool) :
    ((List.finRange n).filter p).length = (Finset.univ.filter (fun b => p b = true)).card := by
  rw [Finset.card_filter]
  have h1 : (∑ b, if p b = true then (1 : ℕ) else 0) =
      ((List.finRange n).map (fun b => if p b = true then (1 : ℕ) else 0)).sum := rfl
  rw [h1]
  induction (List.finRange n) with
  | nil => rfl
  | cons a t ih =>
    rcases h : p a with _ | _ <;> simp [List.filter_cons, h, ih, Nat.add_comm]

lemma b2q_sum_eq_card {n : ℕ} (p : Fin n → Bool) :
    (∑ b, b2q (p b)) = ((Finset.univ.filter (fun b => p b = true)).card : ℚ) := by
  rw [Finset.card_filter]
  push_cast
  refine Finset.sum_congr rfl ?_
  intro b _
  rcases h : p b with _ | _ <;> simp [b2q, h]


/-- The partition constraint forces a unique box per item. -/
lemma existsUnique_box {n : ℕ} {s : Sol n} (hpart : ∀ i, assignCount s i = 1)
    (i : Fin n) : ∃! b : Fin n, s.x i b = true := by
  have h := hpart i
  rw [assignCount, b2q_sum_eq_card] at h
  have hcard : (Finset.univ.filter (fun b => s.x i b = true)).card = 1 := by
    exact_mod_cast h
  obtain ⟨b, hb⟩ := Finset.card_eq_one.mp hcard
  refine ⟨b, ?_, ?_⟩
  · have : b ∈ Finset.univ.filter (fun c => s.x i c = true) := by
      rw [hb]; exact Finset.mem_singleton_self b
    simpa using this
  · intro c hc
    have : c ∈ Finset.univ.filter (fun d => s.x i d = true) := by
      simp [hc]
    rw [hb] at this
    simpa using this

lemma mem_boxItems {n : ℕ} {s : Sol n} {b i : Fin n} :
    i ∈ boxItems s b ↔ s.x i b = true := by
  simp [boxItems, List.mem_filter]

lemma itemBox_eq_some {n : ℕ} {s : Sol n} (hpart : ∀ i, assignCount s i = 1)
    {i b : Fin n} (hx : s.x i b = true) : itemBox s i = some b := by
  obtain ⟨c, hc, huniq⟩ := existsUnique_box hpart i
  have hsome : (itemBox s i).isSome := by
    rw [itemBox, List.find?_isSome]
    exact ⟨b, List.mem_finRange b, hx⟩
  obtain ⟨d, hd⟩ := Option.isSome_iff_exists.mp hsome
  have hpd : s.x i d = true := List.find?_some hd
  rw [hd, huniq d hpd, huniq b hx]

lemma filterMap_eq_map_aux {α β : Type} (f : α → Option β) (g : α → β) :
    ∀ l : List α, (∀ a ∈ l, f a = some (g a)) → l.filterMap f = l.map g := by
  intro l
  induction l with
  | nil => intro _; rfl
  | cons a t ih =>
    intro h
    rw [List.filterMap_cons, h a (List.mem_cons_self a t), List.map_cons,
      ih (fun x hx => h x (List.mem_cons_of_mem a hx))]

lemma boxAssignments_eq_map {n : ℕ} {s : Sol n} (hpart : ∀ i, assignCount s i = 1) :
    boxAssignments s =
      (List.finRange n).map (fun i => ((itemBox s i).map (fun b => b.val + 1)).getD 0) := by
  rw [boxAssignments]
  refine filterMap_eq_map_aux _ _ _ ?_
  intro i _
  obtain ⟨b, hb, _⟩ := existsUnique_box hpart i
  rw [itemBox_eq_some hpart hb]
  rfl

lemma boxAssignments_length {n : ℕ} {s : Sol n} (hpart : ∀ i, assignCount s i = 1) :
    (boxAssignments s).length = n := by
  rw [boxAssignments_eq_map hpart, List.length_map, List.length_finRange]

lemma boxAssignments_getElem {n : ℕ} {s : Sol n} (hpart : ∀ i, assignCount s i = 1)
    {i b : Fin n} (hx : s.x i b = true) :
    (boxAssignments s)[(i.val)]? = some (b.val + 1) := by
  rw [boxAssignments_eq_map hpart]
  rw [List.getElem?_map]
  have : (List.finRange n)[(i.val)]? = some i := by
    rw [List.getElem?_eq_getElem (by simp)]
    simp
  rw [this]
  simp [itemBox_eq_some hpart hx]


lemma boxKgSum_eq_binKg {n : ℕ} (df : Catalog n) (s : Sol n) (b : Fin n) :
    boxKgSum df s b = binKg df s b := by
  rw [boxKgSum, boxItems, sum_map_filter, finRange_map_sum, binKg]
  refine Finset.sum_congr rfl ?_
  intro i _
  rcases h : s.x i b with _ | _ <;> simp [b2q, h]

lemma boxValueSum_eq_binValue {n : ℕ} (df : Catalog n) (s : Sol n) (b : Fin n) :
    boxValueSum df s b = binValue df s b := by
  rw [boxValueSum, boxItems, sum_map_filter, finRange_map_sum, binValue]
  refine Finset.sum_congr rfl ?_
  intro i _
  rcases h : s.x i b with _ | _ <;> simp [b2q, h]

/-- Any box holding an item of positive weight must be active. -/
lemma y_true_of_x {n : ℕ} {df : Catalog n} {maxKg maxValue : ℚ} {s : Sol n}
    (hfe : Feasible df maxKg maxValue s) (hkgpos : ∀ i, 0 < (df.get i).kg)
    {i b : Fin n} (hx : s.x i b = true) : s.y b = true := by
  obtain ⟨_, hkg, _, _⟩ := hfe
  by_contra h
  have hyb : s.y b = false := by simpa using h
  have h1 : binKg df s b ≤ 0 := by
    have h2 := hkg b
    rw [b2q_false _ hyb, mul_zero] at h2
    exact h2
  have h2 : (df.get i).kg ≤ binKg df s b := by
    rw [binKg]
    have h3 := Finset.single_le_sum (f := fun j => (df.get j).kg * b2q (s.x j b))
      (fun j _ => mul_nonneg (le_of_lt (hkgpos j)) (b2q_nonneg _)) (Finset.mem_univ i)
    simpa [hx, b2q] using h3
  have h4 := hkgpos i
  linarith

lemma y_downward {n : ℕ} {s : Sol n}
    (hsym : ∀ b c : Fin n, c.val = b.val + 1 → b2q (s.y c) ≤ b2q (s.y b)) :
    ∀ d : ℕ, ∀ b c : Fin n, c.val = b.val + d → s.y c = true → s.y b = true := by
  intro d
  induction d with
  | zero =>
    intro b c h hc
    have hbc : b = c := Fin.ext (by omega)
    rw [hbc]; exact hc
  | succ d ih =>
    intro b c h hc
    have hmid : b.val + d < n := by have := c.isLt; omega
    have h1 : b2q (s.y c) ≤ b2q (s.y ⟨b.val + d, hmid⟩) := hsym ⟨b.val + d, hmid⟩ c (by simpa using h)
    have hmtrue : s.y ⟨b.val + d, hmid⟩ = true := by
      rcases hym : s.y ⟨b.val + d, hmid⟩ with _ | _
      · rw [hc, hym] at h1
        simp [b2q] at h1
        exact absurd h1 (by norm_num)
      · rfl
    exact ih b ⟨b.val + d, hmid⟩ rfl hmtrue

lemma y_le_of_le {n : ℕ} {s : Sol n}
    (hsym : ∀ b c : Fin n, c.val = b.val + 1 → b2q (s.y c) ≤ b2q (s.y b))
    {b c : Fin n} (hbc : b.val ≤ c.val) (hc : s.y c = true) : s.y b = true :=
  y_downward hsym (c.val - b.val) b c (by omega) hc

/-- Under symmetry breaking, the active boxes are exactly the prefix of
length `len(used_boxes)`. -/
lemma y_iff_lt {n : ℕ} {s : Sol n}
    (hsym : ∀ b c : Fin n, c.val = b.val + 1 → b2q (s.y c) ≤ b2q (s.y b))
    (b : Fin n) : s.y b = true ↔ b.val < (usedBoxes n s).length := by
  rw [usedBoxes, filter_length_eq_card]
  constructor
  · intro hb
    have hsub : Finset.Iic b ⊆ Finset.univ.filter (fun c => s.y c = true) := by
      intro c hc
      rw [Finset.mem_Iic] at hc
      refine Finset.mem_filter.mpr ⟨Finset.mem_univ c, ?_⟩
      exact y_le_of_le hsym (Fin.le_def.mp hc) hb
    have := Finset.card_le_card hsub
    rw [Fin.card_Iic] at this
    omega
  · intro hb
    by_contra h
    have hyb : s.y b = false := by simpa using h
    have hsub : Finset.univ.filter (fun c => s.y c = true) ⊆ Finset.Iio b := by
      intro c hc
      rw [Finset.mem_filter] at hc
      rw [Finset.mem_Iio]
      by_contra hcb
      have hbc : b.val ≤ c.val := by
        rw [Fin.lt_def] at hcb
        omega
      have := y_le_of_le hsym hbc hc.2
      rw [hyb] at this
      exact Bool.false_ne_true this
    have := Finset.card_le_card hsub
    rw [Fin.card_Iio] at this
    omega


lemma objective_eq_length {n : ℕ} (s : Sol n) :
    objective s = ((usedBoxes n s).length : ℚ) := by
  rw [objective, usedBoxes, filter_length_eq_card, b2q_sum_eq_card]

lemma mem_occList {n : ℕ} (a : Fin n → Fin n) (i : Fin n) : a i ∈ occList a :=
  List.mem_filter.mpr ⟨List.mem_finRange _, decide_eq_true ⟨i, rfl⟩⟩

lemma occList_nodup {n : ℕ} (a : Fin n → Fin n) : (occList a).Nodup :=
  List.Nodup.filter _ (List.nodup_finRange n)

lemma occList_length_le {n : ℕ} (a : Fin n → Fin n) : (occList a).length ≤ n := by
  have h := List.length_filter_le (fun b => decide (∃ i, a i = b)) (List.finRange n)
  simpa using h

lemma indexOf_occ_lt {n : ℕ} (a : Fin n → Fin n) (i : Fin n) :
    (occList a).indexOf (a i) < (occList a).length :=
  List.indexOf_lt_length.mpr (mem_occList a i)

lemma card_val_lt {n m : ℕ} (hm : m ≤ n) :
    (Finset.univ.filter (fun b : Fin n => b.val < m)).card = m := by
  have h : Finset.univ.filter (fun b : Fin n => b.val < m) =
      Finset.map (Fin.castLEEmb hm) Finset.univ := by
    ext b
    simp only [Finset.mem_filter, Finset.mem_univ, true_and, Finset.mem_map]
    constructor
    · intro hb
      exact ⟨⟨b.val, hb⟩, rfl⟩
    · rintro ⟨c, rfl⟩
      exact c.isLt
  rw [h, Finset.card_map, Finset.card_univ, Fintype.card_fin]

lemma relabel_objective {n : ℕ} (a : Fin n → Fin n) :
    objective (relabel a) = (specBins a : ℚ) := by
  rw [objective]
  have h : ∀ b : Fin n, b2q ((relabel a).y b) =
      if b.val < (occList a).length then (1 : ℚ) else 0 := by
    intro b
    rcases h2 : decide (b.val < (occList a).length) with _ | _ <;>
      simp_all [relabel, b2q]
  rw [Finset.sum_congr rfl (fun b _ => h b)]
  rw [Finset.sum_boole]
  norm_cast
  exact card_val_lt (occList_length_le a)


lemma b2q_decide (P : Prop) [Decidable P] : b2q (decide P) = if P then 1 else 0 := by
  by_cases hP : P <;> simp [b2q, hP]

lemma relabel_x_iff {n : ℕ} (a : Fin n → Fin n) {b : Fin n}
    (hb : b.val < (occList a).length) (i : Fin n) :
    (relabel a).x i b = true ↔ a i = (occList a).get ⟨b.val, hb⟩ := by
  simp only [relabel, decide_eq_true_eq]
  constructor
  · intro h
    have hg : (occList a).get ⟨(occList a).indexOf (a i), indexOf_occ_lt a i⟩ = a i :=
      List.indexOf_get (indexOf_occ_lt a i)
    rw [← hg]
    congr 1
    exact Fin.ext h
  · intro h
    have hg : (occList a).get ⟨(occList a).indexOf (a i), indexOf_occ_lt a i⟩ = a i :=
      List.indexOf_get (indexOf_occ_lt a i)
    have h2 := (List.Nodup.get_inj_iff (occList_nodup a)).mp (hg.trans h)
    exact congrArg Fin.val h2

lemma relabel_feasible {n : ℕ} {df : Catalog n} {maxKg maxValue : ℚ} {a : Fin n → Fin n}
    (ha : SpecFeasible df maxKg maxValue a) : Feasible df maxKg maxValue (relabel a) := by
  refine ⟨?_, ?_, ?_, ?_⟩
  · intro i
    rw [assignCount]
    have hlt : (occList a).indexOf (a i) < n :=
      lt_of_lt_of_le (indexOf_occ_lt a i) (occList_length_le a)
    have h : ∀ b : Fin n, b2q ((relabel a).x i b) =
        if (⟨(occList a).indexOf (a i), hlt⟩ : Fin n) = b then 1 else 0 := by
      intro b
      show b2q (decide ((occList a).indexOf (a i) = b.val)) = _
      rw [b2q_decide]
      by_cases hc : (occList a).indexOf (a i) = b.val
      · rw [if_pos hc, if_pos (Fin.ext hc)]
      · rw [if_neg hc, if_neg (fun hh => hc (congrArg Fin.val hh))]
    rw [Finset.sum_congr rfl (fun b _ => h b)]
    simp
  · intro b
    by_cases hb : b.val < (occList a).length
    · have hy : (relabel a).y b = true := decide_eq_true hb
      rw [hy]
      have heq : binKg df (relabel a) b = specKg df a ((occList a).get ⟨b.val, hb⟩) := by
        rw [binKg, specKg]
        refine Finset.sum_congr rfl (fun i _ => ?_)
        rcases hx : (relabel a).x i b with _ | _
        · have hne : ¬ a i = (occList a).get ⟨b.val, hb⟩ := fun hh => by
            have h2 := (relabel_x_iff a hb i).mpr hh
            rw [hx] at h2
            exact Bool.false_ne_true h2
          rw [if_neg hne]
          simp [b2q]
        · have hxe := (relabel_x_iff a hb i).mp hx
          rw [if_pos hxe]
          simp [b2q]
      rw [heq]
      have := (ha ((occList a).get ⟨b.val, hb⟩)).1
      simpa [b2q] using this
    · have hy : (relabel a).y b = false := decide_eq_false hb
      have hzero : binKg df (relabel a) b = 0 := by
        rw [binKg]
        refine Finset.sum_eq_zero (fun i _ => ?_)
        have hxf : (relabel a).x i b = false := by
          have hne : (occList a).indexOf (a i) ≠ b.val := by
            have := indexOf_occ_lt a i
            omega
          exact decide_eq_false hne
        rw [hxf]
        simp [b2q]
      rw [hzero, hy]
      simp [b2q]
  · intro b
    by_cases hb : b.val < (occList a).length
    · have hy : (relabel a).y b = true := decide_eq_true hb
      rw [hy]
      have heq : binValue df (relabel a) b = specValue df a ((occList a).get ⟨b.val, hb⟩) := by
        rw [binValue, specValue]
        refine Finset.sum_congr rfl (fun i _ => ?_)
        rcases hx : (relabel a).x i b with _ | _
        · have hne : ¬ a i = (occList a).get ⟨b.val, hb⟩ := fun hh => by
            have h2 := (relabel_x_iff a hb i).mpr hh
            rw [hx] at h2
            exact Bool.false_ne_true h2
          rw [if_neg hne]
          simp [b2q]
        · have hxe := (relabel_x_iff a hb i).mp hx
          rw [if_pos hxe]
          simp [b2q]
      rw [heq]
      have := (ha ((occList a).get ⟨b.val, hb⟩)).2
      simpa [b2q] using this
    · have hy : (relabel a).y b = false := decide_eq_false hb
      have hzero : binValue df (relabel a) b = 0 := by
        rw [binValue]
        refine Finset.sum_eq_zero (fun i _ => ?_)
        have hxf : (relabel a).x i b = false := by
          have hne : (occList a).indexOf (a i) ≠ b.val := by
            have := indexOf_occ_lt a i
            omega
          exact decide_eq_false hne
        rw [hxf]
        simp [b2q]
      rw [hzero, hy]
      simp [b2q]
  · intro b c h
    show b2q (decide (c.val < (occList a).length)) ≤ b2q (decide (b.val < (occList a).length))
    by_cases hc : c.val < (occList a).length
    · have hb : b.val < (occList a).length := by omega
      rw [decide_eq_true hc, decide_eq_true hb]
    · rw [decide_eq_false hc]
      show b2q false ≤ _
      have : b2q false = 0 := rfl
      rw [this]
      exact b2q_nonneg _

lemma optimal_le_spec {n : ℕ} {df : Catalog n} {maxKg maxValue : ℚ} {s : Sol n}
    (hopt : OptimalSol df maxKg maxValue s) {a : Fin n → Fin n}
    (ha : SpecFeasible df maxKg maxValue a) : (usedBoxes n s).length ≤ specBins a := by
  have h := hopt.2 (relabel a) (relabel_feasible ha)
  rw [objective_eq_length, relabel_objective] at h
  exact_mod_cast h


lemma induced_eq_iff {n : ℕ} {s : Sol n} (hpart : ∀ i, assignCount s i = 1)
    (i b : Fin n) : induced s i = b ↔ s.x i b = true := by
  obtain ⟨c, hc, huniq⟩ := existsUnique_box hpart i
  have hbox : itemBox s i = some c := itemBox_eq_some hpart hc
  rw [induced, hbox, Option.getD_some]
  constructor
  · intro h
    subst h
    exact hc
  · intro h
    exact (huniq b h).symm

lemma specKg_induced {n : ℕ} (df : Catalog n) {s : Sol n}
    (hpart : ∀ i, assignCount s i = 1) (b : Fin n) :
    specKg df (induced s) b = binKg df s b := by
  rw [specKg, binKg]
  refine Finset.sum_congr rfl (fun i _ => ?_)
  rcases hx : s.x i b with _ | _
  · have hne : ¬ induced s i = b := fun hh => by
      have := (induced_eq_iff hpart i b).mp hh
      rw [hx] at this
      exact Bool.false_ne_true this
    rw [if_neg hne]
    simp [b2q]
  · rw [if_pos ((induced_eq_iff hpart i b).mpr hx)]
    simp [b2q]

lemma specValue_induced {n : ℕ} (df : Catalog n) {s : Sol n}
    (hpart : ∀ i, assignCount s i = 1) (b : Fin n) :
    specValue df (induced s) b = binValue df s b := by
  rw [specValue, binValue]
  refine Finset.sum_congr rfl (fun i _ => ?_)
  rcases hx : s.x i b with _ | _
  · have hne : ¬ induced s i = b := fun hh => by
      have := (induced_eq_iff hpart i b).mp hh
      rw [hx] at this
      exact Bool.false_ne_true this
    rw [if_neg hne]
    simp [b2q]
  · rw [if_pos ((induced_eq_iff hpart i b).mpr hx)]
    simp [b2q]

lemma induced_specFeasible {n : ℕ} {df : Catalog n} {maxKg maxValue : ℚ} {s : Sol n}
    (hfe : Feasible df maxKg maxValue s) (hmk : 0 ≤ maxKg) (hmv : 0 ≤ maxValue) :
    SpecFeasible df maxKg maxValue (induced s) := by
  intro b
  obtain ⟨hpart, hkg, hval, _⟩ := hfe
  constructor
  · rw [specKg_induced df hpart]
    calc binKg df s b ≤ maxKg * b2q (s.y b) := hkg b
    _ ≤ maxKg * 1 := mul_le_mul_of_nonneg_left (b2q_le_one _) hmk
    _ = maxKg := mul_one maxKg
  · rw [specValue_induced df hpart]
    calc binValue df s b ≤ maxValue * b2q (s.y b) := hval b
    _ ≤ maxValue * 1 := mul_le_mul_of_nonneg_left (b2q_le_one _) hmv
    _ = maxValue := mul_one maxValue

/-- Every occupied box is active, so the occupied count is at most the
active count. -/
lemma specBins_induced_le {n : ℕ} {df : Catalog n} {maxKg maxValue : ℚ} {s : Sol n}
    (hfe : Feasible df maxKg maxValue s) (hkgpos : ∀ i, 0 < (df.get i).kg) :
    specBins (induced s) ≤ (usedBoxes n s).length := by
  rw [specBins, occList, usedBoxes]
  refine List.Sublist.length_le (List.monotone_filter_right _ ?_)
  intro b hb
  rw [decide_eq_true_eq] at hb
  obtain ⟨i, hi⟩ := hb
  exact y_true_of_x hfe hkgpos ((induced_eq_iff hfe.1 i b).mp hi)

/-- At an optimum the active count equals the occupied count. -/
lemma specBins_induced_eq {n : ℕ} {df : Catalog n} {maxKg maxValue : ℚ} {s : Sol n}
    (hopt : OptimalSol df maxKg maxValue s) (hkgpos : ∀ i, 0 < (df.get i).kg)
    (hmk : 0 ≤ maxKg) (hmv : 0 ≤ maxValue) :
    specBins (induced s) = (usedBoxes n s).length :=
  le_antisymm (specBins_induced_le hopt.1 hkgpos)
    (optimal_le_spec hopt (induced_specFeasible hopt.1 hmk hmv))

lemma totalKg_le {n : ℕ} {df : Catalog n} {maxKg maxValue : ℚ} {s : Sol n}
    (hfe : Feasible df maxKg maxValue s) :
    totalKg df ≤ maxKg * ((usedBoxes n s).length : ℚ) := by
  obtain ⟨hpart, hkg, _, _⟩ := hfe
  have h1 : totalKg df = ∑ b, binKg df s b := by
    rw [totalKg]
    conv_rhs => rw [show (fun b => binKg df s b) = fun b => ∑ i, (df.get i).kg * b2q (s.x i b) from rfl]
    rw [Finset.sum_comm]
    refine Finset.sum_congr rfl (fun i _ => ?_)
    rw [← Finset.mul_sum]
    rw [show (∑ b, b2q (s.x i b)) = assignCount s i from rfl, hpart i, mul_one]
  have h2 : (∑ b, binKg df s b) ≤ ∑ b, maxKg * b2q (s.y b) :=
    Finset.sum_le_sum (fun b _ => hkg b)
  rw [h1]
  calc (∑ b, binKg df s b) ≤ ∑ b, maxKg * b2q (s.y b) := h2
  _ = maxKg * objective s := by rw [objective, Finset.mul_sum]
  _ = maxKg * ((usedBoxes n s).length : ℚ) := by rw [objective_eq_length]

lemma totalValue_le {n : ℕ} {df : Catalog n} {maxKg maxValue : ℚ} {s : Sol n}
    (hfe : Feasible df maxKg maxValue s) :
    totalValue df ≤ maxValue * ((usedBoxes n s).length : ℚ) := by
  obtain ⟨hpart, _, hval, _⟩ := hfe
  have h1 : totalValue df = ∑ b, binValue df s b := by
    rw [totalValue]
    conv_rhs => rw [show (fun b => binValue df s b) = fun b => ∑ i, (df.get i).value * b2q (s.x i b) from rfl]
    rw [Finset.sum_comm]
    refine Finset.sum_congr rfl (fun i _ => ?_)
    rw [← Finset.mul_sum]
    rw [show (∑ b, b2q (s.x i b)) = assignCount s i from rfl, hpart i, mul_one]
  have h2 : (∑ b, binValue df s b) ≤ ∑ b, maxValue * b2q (s.y b) :=
    Finset.sum_le_sum (fun b _ => hval b)
  rw [h1]
  calc (∑ b, binValue df s b) ≤ ∑ b, maxValue * b2q (s.y b) := h2
  _ = maxValue * objective s := by rw [objective, Finset.mul_sum]
  _ = maxValue * ((usedBoxes n s).length : ℚ) := by rw [objective_eq_length]

lemma ceil_kg_le {n : ℕ} {df : Catalog n} {maxKg maxValue : ℚ} {s : Sol n}
    (hfe : Feasible df maxKg maxValue s) (hmk : 0 < maxKg) :
    ⌈totalKg df / maxKg⌉ ≤ ((usedBoxes n s).length : ℤ) := by
  rw [Int.ceil_le]
  push_cast
  rw [div_le_iff₀ hmk]
  calc totalKg df ≤ maxKg * ((usedBoxes n s).length : ℚ) := totalKg_le hfe
  _ = ((usedBoxes n s).length : ℚ) * maxKg := mul_comm _ _

lemma ceil_value_le {n : ℕ} {df : Catalog n} {maxKg maxValue : ℚ} {s : Sol n}
    (hfe : Feasible df maxKg maxValue s) (hmv : 0 < maxValue) :
    ⌈totalValue df / maxValue⌉ ≤ ((usedBoxes n s).length : ℤ) := by
  rw [Int.ceil_le]
  push_cast
  rw [div_le_iff₀ hmv]
  calc totalValue df ≤ maxValue * ((usedBoxes n s).length : ℚ) := totalValue_le hfe
  _ = ((usedBoxes n s).length : ℚ) * maxValue := mul_comm _ _


lemma mem_usedBoxes {n : ℕ} {s : Sol n} {b : Fin n} :
    b ∈ usedBoxes n s ↔ s.y b = true := by
  simp [usedBoxes, List.mem_filter]

/-- For a constraint-satisfying valuation with positive weights, the boxes of
the summary partition the items: flattening the per-box item lists is a
permutation of all items. -/
lemma flatMap_boxItems_perm {n : ℕ} {df : Catalog n} {maxKg maxValue : ℚ} {s : Sol n}
    (hfe : Feasible df maxKg maxValue s) (hkgpos : ∀ i, 0 < (df.get i).kg) :
    List.Perm ((usedBoxes n s).flatMap (fun b => boxItems s b)) (List.finRange n) := by
  have hnd : ((usedBoxes n s).flatMap (fun b => boxItems s b)).Nodup := by
    rw [List.nodup_flatMap]
    refine ⟨fun b _ => (List.nodup_finRange n).filter _, ?_⟩
    have hub : (usedBoxes n s).Pairwise (· ≠ ·) := (List.nodup_finRange n).filter _
    refine hub.imp ?_
    intro b c hbc
    intro i hib hic
    obtain ⟨d, _, huniq⟩ := existsUnique_box hfe.1 i
    exact hbc ((huniq b (mem_boxItems.mp hib)).trans (huniq c (mem_boxItems.mp hic)).symm)
  refine (List.perm_ext_iff_of_nodup hnd (List.nodup_finRange n)).mpr ?_
  intro i
  simp only [List.mem_flatMap, List.mem_finRange, iff_true]
  obtain ⟨b, hb, _⟩ := existsUnique_box hfe.1 i
  exact ⟨b, mem_usedBoxes.mpr (y_true_of_x hfe hkgpos hb), mem_boxItems.mpr hb⟩

lemma boxItems_ne_nil_iff {n : ℕ} {s : Sol n} (hpart : ∀ i, assignCount s i = 1)
    (b : Fin n) : boxItems s b ≠ [] ↔ ∃ i, induced s i = b := by
  constructor
  · intro h
    obtain ⟨i, hi⟩ := List.exists_mem_of_ne_nil _ h
    exact ⟨i, (induced_eq_iff hpart i b).mpr (mem_boxItems.mp hi)⟩
  · rintro ⟨i, hi⟩
    exact List.ne_nil_of_mem (mem_boxItems.mpr ((induced_eq_iff hpart i b).mp hi))

lemma occList_induced_sublist {n : ℕ} {df : Catalog n} {maxKg maxValue : ℚ} {s : Sol n}
    (hfe : Feasible df maxKg maxValue s) (hkgpos : ∀ i, 0 < (df.get i).kg) :
    List.Sublist (occList (induced s)) (usedBoxes n s) := by
  rw [occList, usedBoxes]
  refine List.monotone_filter_right _ ?_
  intro b hb
  rw [decide_eq_true_eq] at hb
  obtain ⟨i, hi⟩ := hb
  exact y_true_of_x hfe hkgpos ((induced_eq_iff hfe.1 i b).mp hi)

/-- At an optimum, a box is occupied exactly when it is active. -/
lemma occupied_iff_active {n : ℕ} {df : Catalog n} {maxKg maxValue : ℚ} {s : Sol n}
    (hopt : OptimalSol df maxKg maxValue s) (hkgpos : ∀ i, 0 < (df.get i).kg)
    (hmk : 0 ≤ maxKg) (hmv : 0 ≤ maxValue) (b : Fin n) :
    boxItems s b ≠ [] ↔ s.y b = true := by
  have heq : occList (induced s) = usedBoxes n s :=
    (occList_induced_sublist hopt.1 hkgpos).eq_of_length
      (specBins_induced_eq hopt hkgpos hmk hmv)
  constructor
  · intro h
    obtain ⟨i, hi⟩ := (boxItems_ne_nil_iff hopt.1.1 b).mp h
    exact y_true_of_x hopt.1 hkgpos ((induced_eq_iff hopt.1.1 i b).mp hi)
  · intro h
    have hb : b ∈ usedBoxes n s := mem_usedBoxes.mpr h
    rw [← heq] at hb
    rw [occList, List.mem_filter] at hb
    obtain ⟨-, hb2⟩ := hb
    rw [decide_eq_true_eq] at hb2
    exact (boxItems_ne_nil_iff hopt.1.1 b).mpr hb2

lemma numBoxes_eq_nonempty_count {n : ℕ} {df : Catalog n} {maxKg maxValue : ℚ} {s : Sol n}
    (hopt : OptimalSol df maxKg maxValue s) (hkgpos : ∀ i, 0 < (df.get i).kg)
    (hmk : 0 ≤ maxKg) (hmv : 0 ≤ maxValue) :
    ((List.finRange n).filter (fun b => !(boxItems s b).isEmpty)).length =
      (usedBoxes n s).length := by
  rw [usedBoxes]
  congr 1
  refine List.filter_congr ?_
  intro b _
  have h1 := occupied_iff_active hopt hkgpos hmk hmv b
  rcases hy : s.y b with _ | _ <;> rcases hne : (boxItems s b).isEmpty with _ | _ <;>
    simp_all [List.isEmpty_iff]

end Giftpack

namespace Giftpack

lemma finRange_map_get_vec {n : ℕ} (df : Catalog n) :
    (List.finRange n).map df.get = df.toList := by
  rcases df with ⟨l, rfl⟩
  exact List.finRange_map_get l

/-- Claim C1: for every solve call that returns a result (status OPTIMAL), each
input item is assigned to exactly one box, the per-item box column has one
entry per item, and the item names listed across the per-box summary are a
permutation of the input item names (no duplicates or omissions). -/
theorem C1_partition {n : ℕ} (df : Catalog n) (maxKg maxValue : ℚ) (s : Sol n)
    (hfe : Feasible df maxKg maxValue s) (hkgpos : ∀ i, 0 < (df.get i).kg) :
    (∀ i : Fin n, ∃! b : Fin n, s.x i b = true) ∧
    (boxAssignments s).length = n ∧
    List.Perm ((usedBoxes n s).flatMap (fun b => boxNames df s b))
      (df.toList.map Item.name) := by
  refine ⟨existsUnique_box hfe.1, boxAssignments_length hfe.1, ?_⟩
  have hperm := (flatMap_boxItems_perm hfe hkgpos).map (fun i => (df.get i).name)
  rw [List.map_flatMap] at hperm
  have hr : (List.finRange n).map (fun i => (df.get i).name) = df.toList.map Item.name := by
    rw [← finRange_map_get_vec df, List.map_map]
    rfl
  rw [hr] at hperm
  exact hperm

lemma get_singleton (it : Item) (i : Fin 1) :
    Mathlib.Vector.get (α := Item) (n := 1) ⟨[it], rfl⟩ i = it := by
  have h : i = 0 := Subsingleton.elim i 0
  subst h
  rfl

lemma hkgA : ∀ i : Fin 1, 0 < (dfA.get i).kg := by
  intro i
  rw [get_singleton]
  norm_num

lemma feasA : Feasible dfA 2 39 sA := by
  refine ⟨?_, ?_, ?_, ?_⟩
  · intro i
    rw [assignCount, Fin.sum_univ_one]
    simp [b2q]
  · intro b
    rw [binKg, Fin.sum_univ_one, get_singleton]
    simp [b2q]
  · intro b
    rw [binValue, Fin.sum_univ_one, get_singleton]
    norm_num [b2q]
  · intro b c h
    omega

lemma optA : OptimalSol dfA 2 39 sA := by
  refine ⟨feasA, ?_⟩
  intro t ht
  obtain ⟨hpart, hkg, _, _⟩ := ht
  have hx : t.x 0 0 = true := by
    have h1 := hpart 0
    rw [assignCount, Fin.sum_univ_one] at h1
    rcases h : t.x 0 0 with _ | _
    · rw [h] at h1
      simp [b2q] at h1
    · rfl
  have hy : t.y 0 = true := by
    have h2 := hkg 0
    rw [binKg, Fin.sum_univ_one, get_singleton] at h2
    rcases h : t.y 0 with _ | _
    · rw [hx, h] at h2
      simp [b2q] at h2
      exact absurd h2 (by norm_num)
    · rfl
  rw [objective, objective, Fin.sum_univ_one, Fin.sum_univ_one, hy]

theorem C1_partition_witness :
    (Feasible dfA 2 39 sA ∧ ∀ i : Fin 1, 0 < (dfA.get i).kg) ∧
    ((∀ i : Fin 1, ∃! b : Fin 1, sA.x i b = true) ∧
      (boxAssignments sA).length = 1 ∧
      List.Perm ((usedBoxes 1 sA).flatMap (fun b => boxNames dfA sA b))
        (dfA.toList.map Item.name)) :=
  ⟨⟨feasA, hkgA⟩, C1_partition dfA 2 39 sA feasA hkgA⟩

/-- Claim C2: for every solve call that returns a result, every box satisfies both
capacity limits: the summed weight of its items is at most max_weight and
the summed value at most max_value. -/
theorem C2_capacity {n : ℕ} (df : Catalog n) (maxKg maxValue : ℚ) (s : Sol n)
    (hfe : Feasible df maxKg maxValue s) (hmk : 0 ≤ maxKg) (hmv : 0 ≤ maxValue) :
    ∀ b : Fin n, boxKgSum df s b ≤ maxKg ∧ boxValueSum df s b ≤ maxValue := by
  intro b
  obtain ⟨_, hkg, hval, _⟩ := hfe
  constructor
  · rw [boxKgSum_eq_binKg]
    calc binKg df s b ≤ maxKg * b2q (s.y b) := hkg b
    _ ≤ maxKg * 1 := mul_le_mul_of_nonneg_left (b2q_le_one _) hmk
    _ = maxKg := mul_one maxKg
  · rw [boxValueSum_eq_binValue]
    calc binValue df s b ≤ maxValue * b2q (s.y b) := hval b
    _ ≤ maxValue * 1 := mul_le_mul_of_nonneg_left (b2q_le_one _) hmv
    _ = maxValue := mul_one maxValue

theorem C2_capacity_witness :
    (Feasible dfA 2 39 sA ∧ (0:ℚ) ≤ 2 ∧ (0:ℚ) ≤ 39) ∧
    (∀ b : Fin 1, boxKgSum dfA sA b ≤ 2 ∧ boxValueSum dfA sA b ≤ 39) :=
  ⟨⟨feasA, by norm_num, by norm_num⟩,
    C2_capacity dfA 2 39 sA feasA (by norm_num) (by norm_num)⟩

/-- Claim C3: on an optimal result, num_boxes equals the count of non-empty boxes,
that count is minimal among all assignments satisfying partition and
capacities, it dominates both capacity lower bounds
ceil(total weight / max_weight) and ceil(total value / max_value), and when
some assignment attains the larger of the two bounds the reported count
equals it. -/
theorem C3_minimality {n : ℕ} (df : Catalog n) (maxKg maxValue : ℚ) (s : Sol n)
    (hopt : OptimalSol df maxKg maxValue s) (hkgpos : ∀ i, 0 < (df.get i).kg)
    (hmk : 0 < maxKg) (hmv : 0 < maxValue) :
    ((List.finRange n).filter (fun b => !(boxItems s b).isEmpty)).length =
        (usedBoxes n s).length ∧
    (∀ a : Fin n → Fin n, SpecFeasible df maxKg maxValue a →
        (usedBoxes n s).length ≤ specBins a) ∧
    ⌈totalKg df / maxKg⌉ ≤ ((usedBoxes n s).length : ℤ) ∧
    ⌈totalValue df / maxValue⌉ ≤ ((usedBoxes n s).length : ℤ) ∧
    (∀ a : Fin n → Fin n, SpecFeasible df maxKg maxValue a →
        (specBins a : ℤ) = max ⌈totalKg df / maxKg⌉ ⌈totalValue df / maxValue⌉ →
        ((usedBoxes n s).length : ℤ) =
          max ⌈totalKg df / maxKg⌉ ⌈totalValue df / maxValue⌉) := by
  have hmin : ∀ a : Fin n → Fin n, SpecFeasible df maxKg maxValue a →
      (usedBoxes n s).length ≤ specBins a := fun a ha => optimal_le_spec hopt ha
  have hck : ⌈totalKg df / maxKg⌉ ≤ ((usedBoxes n s).length : ℤ) := ceil_kg_le hopt.1 hmk
  have hcv : ⌈totalValue df / maxValue⌉ ≤ ((usedBoxes n s).length : ℤ) :=
    ceil_value_le hopt.1 hmv
  refine ⟨numBoxes_eq_nonempty_count hopt hkgpos hmk.le hmv.le, hmin, hck, hcv, ?_⟩
  intro a ha hbound
  have h1 : ((usedBoxes n s).length : ℤ) ≤ specBins a := by exact_mod_cast hmin a ha
  have h2 := max_le hck hcv
  omega

theorem C3_minimality_witness :
    (OptimalSol dfA 2 39 sA ∧ (∀ i : Fin 1, 0 < (dfA.get i).kg) ∧
      (0:ℚ) < 2 ∧ (0:ℚ) < 39) ∧
    (((List.finRange 1).filter (fun b => !(boxItems sA b).isEmpty)).length =
        (usedBoxes 1 sA).length ∧
      (∀ a : Fin 1 → Fin 1, SpecFeasible dfA 2 39 a →
        (usedBoxes 1 sA).length ≤ specBins a) ∧
      ⌈totalKg dfA / 2⌉ ≤ ((usedBoxes 1 sA).length : ℤ) ∧
      ⌈totalValue dfA / 39⌉ ≤ ((usedBoxes 1 sA).length : ℤ) ∧
      (∀ a : Fin 1 → Fin 1, SpecFeasible dfA 2 39 a →
        (specBins a : ℤ) = max ⌈totalKg dfA / 2⌉ ⌈totalValue dfA / 39⌉ →
        ((usedBoxes 1 sA).length : ℤ) =
          max ⌈totalKg dfA / 2⌉ ⌈totalValue dfA / 39⌉)) :=
  ⟨⟨optA, hkgA, by norm_num, by norm_num⟩,
    C3_minimality dfA 2 39 sA optA hkgA (by norm_num) (by norm_num)⟩

/-- Claim C7: on an optimal result with k = len(used_boxes) active boxes, a box is
active exactly when its index is below k, and occupied exactly when its
index is below k: the used indices are the gapless prefix 0..k-1. -/
theorem C7_gapless {n : ℕ} (df : Catalog n) (maxKg maxValue : ℚ) (s : Sol n)
    (hopt : OptimalSol df maxKg maxValue s) (hkgpos : ∀ i, 0 < (df.get i).kg)
    (hmk : 0 < maxKg) (hmv : 0 < maxValue) :
    ∀ b : Fin n,
      (s.y b = true ↔ b.val < (usedBoxes n s).length) ∧
      (boxItems s b ≠ [] ↔ b.val < (usedBoxes n s).length) := by
  intro b
  have h1 := y_iff_lt hopt.1.2.2.2 b
  exact ⟨h1, (occupied_iff_active hopt hkgpos hmk.le hmv.le b).trans h1⟩

theorem C7_gapless_witness :
    (OptimalSol dfA 2 39 sA ∧ (∀ i : Fin 1, 0 < (dfA.get i).kg) ∧
      (0:ℚ) < 2 ∧ (0:ℚ) < 39) ∧
    (∀ b : Fin 1,
      (sA.y b = true ↔ b.val < (usedBoxes 1 sA).length) ∧
      (boxItems sA b ≠ [] ↔ b.val < (usedBoxes 1 sA).length)) :=
  ⟨⟨optA, hkgA, by norm_num, by norm_num⟩,
    C7_gapless dfA 2 39 sA optA hkgA (by norm_num) (by norm_num)⟩


/-- Claim C8: summary rows are ordered by box index ascending, each reported box
number is the internal index plus one, and the per-item box column uses the
same 1-based convention. -/
theorem C8_presentation {n : ℕ} (df : Catalog n) (maxKg maxValue : ℚ) (s : Sol n)
    (hfe : Feasible df maxKg maxValue s) :
    (boxesSummary df s).map BoxRow.box = (usedBoxes n s).map (fun b => b.val + 1) ∧
    ((boxesSummary df s).map BoxRow.box).Pairwise (· < ·) ∧
    (∀ i b : Fin n, s.x i b = true →
        (boxAssignments s)[(i.val)]? = some (b.val + 1)) := by
  have hmap : (boxesSummary df s).map BoxRow.box =
      (usedBoxes n s).map (fun b => b.val + 1) := by
    rw [boxesSummary, List.map_map]
    rfl
  refine ⟨hmap, ?_, fun i b hx => boxAssignments_getElem hfe.1 hx⟩
  rw [hmap]
  have hub : (usedBoxes n s).Pairwise (· < ·) :=
    (List.pairwise_lt_finRange n).sublist (List.filter_sublist _)
  rw [List.pairwise_map]
  refine hub.imp ?_
  intro b c hbc
  have := Fin.lt_def.mp hbc
  omega

theorem C8_presentation_witness :
    Feasible dfA 2 39 sA ∧
    ((boxesSummary dfA sA).map BoxRow.box = (usedBoxes 1 sA).map (fun b => b.val + 1) ∧
      ((boxesSummary dfA sA).map BoxRow.box).Pairwise (· < ·) ∧
      (∀ i b : Fin 1, sA.x i b = true →
        (boxAssignments sA)[(i.val)]? = some (b.val + 1))) :=
  ⟨feasA, C8_presentation dfA 2 39 sA feasA⟩

/-- Claim C9: the per-item result is built from a copy of the input catalog: it
keeps every original row in the original order (first components) and only
adds the box column (second components), and solve on an optimal status
returns exactly this copy together with the summary and the box count. -/
theorem C9_frame {n : ℕ} (df : Catalog n) (maxKg maxValue : ℚ) (s : Sol n)
    (hfe : Feasible df maxKg maxValue s) :
    dfResult df s = some (df.toList.zip (boxAssignments s)) ∧
    (df.toList.zip (boxAssignments s)).map Prod.fst = df.toList ∧
    (df.toList.zip (boxAssignments s)).map Prod.snd = boxAssignments s ∧
    solve df maxKg maxValue Status.optimal s =
      some (df.toList.zip (boxAssignments s), boxesSummary df s,
        (usedBoxes n s).length) := by
  have hlen : (boxAssignments s).length = n := boxAssignments_length hfe.1
  have h1 : dfResult df s = some (df.toList.zip (boxAssignments s)) := by
    rw [dfResult, if_pos hlen]
  refine ⟨h1, ?_, ?_, ?_⟩
  · exact List.map_fst_zip _ _ (by rw [hlen, df.toList_length])
  · exact List.map_snd_zip _ _ (by rw [hlen, df.toList_length])
  · rw [solve, if_pos rfl, h1]
    rfl

theorem C9_frame_witness :
    Feasible dfA 2 39 sA ∧
    (dfResult dfA sA = some (dfA.toList.zip (boxAssignments sA)) ∧
      (dfA.toList.zip (boxAssignments sA)).map Prod.fst = dfA.toList ∧
      (dfA.toList.zip (boxAssignments sA)).map Prod.snd = boxAssignments sA ∧
      solve dfA 2 39 Status.optimal sA =
        some (dfA.toList.zip (boxAssignments sA), boxesSummary dfA sA,
          (usedBoxes 1 sA).length)) :=
  ⟨feasA, C9_frame dfA 2 39 sA feasA⟩

/-- Claim C10: within each summary entry the items are listed in original catalog
order: the per-box index list is strictly increasing, and the per-box name
list is a sublist of the input name sequence. -/
theorem C10_order {n : ℕ} (df : Catalog n) (s : Sol n) :
    ∀ b : Fin n,
      (boxItems s b).Pairwise (· < ·) ∧
      List.Sublist (boxNames df s b) (df.toList.map Item.name) := by
  intro b
  constructor
  · exact (List.pairwise_lt_finRange n).sublist (List.filter_sublist _)
  · rw [boxNames]
    have h := (List.filter_sublist (p := fun i => s.x i b) (List.finRange n)).map
      (fun i => (df.get i).name)
    have hr : (List.finRange n).map (fun i => (df.get i).name) =
        df.toList.map Item.name := by
      rw [← finRange_map_get_vec df, List.map_map]
      rfl
    rw [hr] at h
    exact h

/-! ## C4: there is no ModelError pre-check (corrected) -/

/-- Claim C4 counterexample: with an item whose weight (3) exceeds max_weight (2),
solve does not fail with any item-identifying ModelError before solving:
the solver runs, reports a non-optimal status, and solve returns the bare
`(None, None, 0)` failure — byte-identical to the failure for a completely
different offending item (value 99 over max_value 39), so no offending item
is identified. -/
theorem C4_counterexample :
    solve dfBig 2 39 Status.infeasible sNone = none ∧
    solve dfPricey 2 39 Status.infeasible sNone = none ∧
    solve dfBig 2 39 Status.infeasible sNone =
      solve dfPricey 2 39 Status.infeasible sNone :=
  ⟨rfl, rfl, rfl⟩

/-- Claim C4 as amended: an item whose weight alone exceeds max_weight or whose
value alone exceeds max_value makes the constraint system infeasible, so no
exact solver can report an optimal status; there is no pre-check — the
solver is always invoked — and for every non-optimal status solve returns
the anonymous failure `(None, None, 0)` that identifies no item. -/
theorem C4_infeasible {n : ℕ} (df : Catalog n) (maxKg maxValue : ℚ)
    (hkgnn : ∀ i, 0 ≤ (df.get i).kg) (hvalnn : ∀ i, 0 ≤ (df.get i).value)
    (hmk : 0 < maxKg) (hmv : 0 < maxValue)
    (hover : ∃ i : Fin n, maxKg < (df.get i).kg ∨ maxValue < (df.get i).value) :
    (∀ s : Sol n, ¬ Feasible df maxKg maxValue s) ∧
    (∀ st : Status, st ≠ Status.optimal → ∀ s : Sol n,
        solve df maxKg maxValue st s = none) := by
  constructor
  · intro s hfe
    obtain ⟨i, hi⟩ := hover
    obtain ⟨b, hb, -⟩ := existsUnique_box hfe.1 i
    obtain ⟨-, hkg, hval, -⟩ := hfe
    rcases hi with hi | hi
    · have h2 : (df.get i).kg ≤ binKg df s b := by
        rw [binKg]
        calc (df.get i).kg = (df.get i).kg * b2q (s.x i b) := by rw [hb]; simp [b2q]
        _ ≤ ∑ j, (df.get j).kg * b2q (s.x j b) :=
          Finset.single_le_sum (f := fun j => (df.get j).kg * b2q (s.x j b))
            (fun j _ => mul_nonneg (hkgnn j) (b2q_nonneg _)) (Finset.mem_univ i)
      have h4 : binKg df s b ≤ maxKg := by
        calc binKg df s b ≤ maxKg * b2q (s.y b) := hkg b
        _ ≤ maxKg * 1 := mul_le_mul_of_nonneg_left (b2q_le_one _) hmk.le
        _ = maxKg := mul_one maxKg
      linarith
    · have h2 : (df.get i).value ≤ binValue df s b := by
        rw [binValue]
        calc (df.get i).value = (df.get i).value * b2q (s.x i b) := by rw [hb]; simp [b2q]
        _ ≤ ∑ j, (df.get j).value * b2q (s.x j b) :=
          Finset.single_le_sum (f := fun j => (df.get j).value * b2q (s.x j b))
            (fun j _ => mul_nonneg (hvalnn j) (b2q_nonneg _)) (Finset.mem_univ i)
      have h4 : binValue df s b ≤ maxValue := by
        calc binValue df s b ≤ maxValue * b2q (s.y b) := hval b
        _ ≤ maxValue * 1 := mul_le_mul_of_nonneg_left (b2q_le_one _) hmv.le
        _ = maxValue := mul_one maxValue
      linarith
  · intro st hst s
    simp [solve, hst]

theorem C4_infeasible_witness :
    ((∀ i : Fin 1, 0 ≤ (dfBig.get i).kg) ∧ (∀ i : Fin 1, 0 ≤ (dfBig.get i).value) ∧
      (0:ℚ) < 2 ∧ (0:ℚ) < 39 ∧
      (∃ i : Fin 1, (2:ℚ) < (dfBig.get i).kg ∨ (39:ℚ) < (dfBig.get i).value)) ∧
    ((∀ s : Sol 1, ¬ Feasible dfBig 2 39 s) ∧
      (∀ st : Status, st ≠ Status.optimal → ∀ s : Sol 1,
        solve dfBig 2 39 st s = none)) :=
  ⟨⟨fun i => by rw [get_singleton]; norm_num,
    fun i => by rw [get_singleton]; norm_num,
    by norm_num, by norm_num,
    ⟨0, Or.inl (by rw [get_singleton]; norm_num)⟩⟩,
    C4_infeasible dfBig 2 39
      (fun i => by rw [get_singleton]; norm_num)
      (fun i => by rw [get_singleton]; norm_num)
      (by norm_num) (by norm_num)
      ⟨0, Or.inl (by rw [get_singleton]; norm_num)⟩⟩

/-! ## C5: no budget parameter, no Timeout status (corrected) -/

/-- Claim C5 counterexample: on a feasible instance with a known incumbent, a
solver status of NotSolved (the status pulp reports when the budget is
exhausted) makes solve return `none` — identical to the result for an
infeasible status: no Timeout status, no incumbent, no
not-proven-optimal flag is returned, and the signature of solve carries no
time/iteration budget. -/
theorem C5_counterexample :
    Feasible dfA 2 39 sA ∧
    solve dfA 2 39 Status.notSolved sA = none ∧
    solve dfA 2 39 Status.infeasible sA = none ∧
    solve dfA 2 39 Status.notSolved sA = solve dfA 2 39 Status.infeasible sA :=
  ⟨feasA, rfl, rfl, rfl⟩

/-- Claim C5 as amended: solve takes no budget parameter; for every solver status
other than optimal — timeout included — it discards the valuation and
returns the indistinguishable failure `(None, None, 0)`. -/
theorem C5_failure {n : ℕ} (df : Catalog n) (maxKg maxValue : ℚ) (st : Status)
    (s : Sol n) (hst : st ≠ Status.optimal) :
    solve df maxKg maxValue st s = none := by
  simp [solve, hst]

theorem C5_failure_witness :
    (Status.notSolved ≠ Status.optimal) ∧
    solve dfA 2 39 Status.notSolved sA = none :=
  ⟨by decide, C5_failure dfA 2 39 Status.notSolved sA (by decide)⟩

/-! ## C6: empty catalog is rejected by main, no NO_ITEMS status (corrected) -/

/-- Claim C6 counterexample: for the empty catalog, main does not return a
zero-box success: it takes the "No gift data to optimize." error branch
(and never calls solve); no NO_ITEMS status exists in the code. -/
theorem C6_counterexample :
    mainPack df0 2 39 Status.optimal s0 = MainOutcome.errorNoData ∧
    ∀ d bs k, mainPack df0 2 39 Status.optimal s0 ≠ MainOutcome.results d bs k := by
  refine ⟨rfl, ?_⟩
  intro d bs k h
  rw [show mainPack df0 2 39 Status.optimal s0 = MainOutcome.errorNoData from rfl] at h
  exact MainOutcome.noConfusion h

/-- Claim C6 as amended: main rejects an empty catalog with an error outcome before
invoking solve, for every capacity pair and solver outcome; solve itself,
if called directly on the empty catalog with an optimal status, returns the
empty assignment, the empty summary and 0 boxes. -/
theorem C6_empty (maxKg maxValue : ℚ) (st : Status) (s : Sol 0) :
    mainPack df0 maxKg maxValue st s = MainOutcome.errorNoData ∧
    solve df0 maxKg maxValue Status.optimal s = some ([], [], 0) :=
  ⟨rfl, rfl⟩

end Giftpack
